import Mathlib

/-!
Verification of the agent-orchestration subsystem of the muset-ai-research
repository against its natural-language specification.

The repository's design document (src/.kiro/specs/ai-writing-assistant/design.md)
declares the orchestration components (TaskPlanner, FileSystemManager,
SubAgentManager, retry strategy) as interface stubs; the only executable
fragment there is RetryStrategy.get_delay together with the RetryConfig
defaults.  Where a component's behaviour is not implemented in the sources,
the definitions below are modelled from the specification text (marked
`Modelled from the spec:`); where executable source exists
(RetryStrategy.get_delay in design.md, APIClient.request / APIClient.streamChat
and the ConfigImportExport component in the TypeScript sources) the
definitions are direct shallow embeddings of that code.
-/

/- ## Context Store (spec section 4.2, design.md FileSystemManager) -/

/-- Errors raised by the context store. -/
inductive StoreError where
  | notFound
  | versionNotFound
  | contentTooLarge
  | invalidEdit
  deriving DecidableEq

/-- Modelled from the spec: versioned file-like storage keyed by path
(design.md declares FileSystemManager.write_file / read_file / edit_file /
create_version only as stubs).  Each path maps to its list of stored
contents, newest first; the version number of the newest entry is the
length of the list.  maxSize is the admissible content size of the store. -/
structure Store where
  maxSize : Nat
  entries : List (String × List String)
  deriving DecidableEq

/-- The stored version list for a path, newest first. -/
def lookupPath (s : Store) (p : String) : Option (List String) :=
  (s.entries.find? (fun e => e.fst = p)).map (fun e => e.snd)

/-- Replace (or create) the version list of a path. -/
def setPath (s : Store) (p : String) (vs : List String) : Store :=
  { s with entries :=
      if (s.entries.find? (fun e => e.fst = p)).isSome then
        s.entries.map (fun e => if e.fst = p then (p, vs) else e)
      else (p, vs) :: s.entries }

/-- The current (latest committed) version number of a path; 0 when absent. -/
def currentVersion (s : Store) (p : String) : Nat :=
  ((lookupPath s p).getD []).length

/-- Modelled from the spec: write(path, content) always creates a new
version and never mutates an existing one; content beyond the admissible
size is refused. -/
def writeFile (s : Store) (p c : String) : Except StoreError (Store × Nat) :=
  if s.maxSize < c.length then .error .contentTooLarge
  else
    let vs := (lookupPath s p).getD []
    .ok (setPath s p (c :: vs), vs.length + 1)

/-- Modelled from the spec: read(path, version?) returns the latest version
unless a version is explicitly requested; reading a nonexistent path is a
NotFoundError. -/
def readFile (s : Store) (p : String) (v? : Option Nat) : Except StoreError String :=
  match lookupPath s p with
  | none => .error .notFound
  | some vs =>
    match v? with
    | none =>
      match vs with
      | [] => .error .notFound
      | c :: _ => .ok c
    | some v =>
      if 1 ≤ v ∧ v ≤ vs.length then .ok (vs.getD (vs.length - v) "")
      else .error .versionNotFound

/-- Fold a sequence of writes to a single path over the store; the order of
the list is the serialization order the store imposes on concurrent
writers. -/
def writeSeq (s : Store) (p : String) : List String → Store
  | [] => s
  | c :: cs =>
    match writeFile s p c with
    | .ok (s', _) => writeSeq s' p cs
    | .error _ => writeSeq s p cs

theorem find?_map_setEntry (l : List (String × List String)) (p : String)
    (vs : List String) (h : (l.find? (fun e => e.fst = p)).isSome) :
    (l.map (fun e => if e.fst = p then (p, vs) else e)).find? (fun e => e.fst = p)
      = some (p, vs) := by
  induction l with
  | nil => simp [List.find?] at h
  | cons e rest ih =>
    by_cases he : e.fst = p
    · simp [he]
    · have h' : (rest.find? (fun e => e.fst = p)).isSome := by
        have := List.find?_cons_of_neg (l := rest) (a := e)
          (p := fun e => decide (e.fst = p)) (by simpa using he)
        simpa [this] using h
      simp only [List.map_cons]
      rw [if_neg he, List.find?_cons_of_neg _ (by simpa using he)]
      exact ih h'

theorem lookupPath_setPath (s : Store) (p : String) (vs : List String) :
    lookupPath (setPath s p vs) p = some vs := by
  unfold lookupPath setPath
  by_cases h : (s.entries.find? (fun e => e.fst = p)).isSome
  · simp only [h, if_true]
    rw [find?_map_setEntry s.entries p vs h]
    rfl
  · simp only [h, Bool.false_eq_true, if_false]
    rw [List.find?_cons_of_pos _ (by simp)]
    rfl

theorem writeFile_ok_of_le {s : Store} {p c : String} (h : c.length ≤ s.maxSize) :
    writeFile s p c
      = .ok (setPath s p (c :: (lookupPath s p).getD []), currentVersion s p + 1) := by
  unfold writeFile
  rw [if_neg (by omega)]
  rfl

theorem maxSize_setPath (s : Store) (p : String) (vs : List String) :
    (setPath s p vs).maxSize = s.maxSize := by
  unfold setPath
  by_cases h : (s.entries.find? (fun e => e.fst = p)).isSome <;> simp [h]

theorem currentVersion_write {s s' : Store} {p c : String} {v : Nat}
    (h : writeFile s p c = .ok (s', v)) :
    v = currentVersion s p + 1 ∧ currentVersion s' p = v := by
  unfold writeFile at h
  by_cases hsz : s.maxSize < c.length
  · simp [hsz] at h
  · simp only [hsz, if_false, Except.ok.injEq, Prod.mk.injEq] at h
    obtain ⟨hs, hv⟩ := h
    subst hs hv
    refine ⟨rfl, ?_⟩
    simp [currentVersion, lookupPath_setPath]

theorem readFile_write_latest {s s' : Store} {p c : String} {v : Nat}
    (h : writeFile s p c = .ok (s', v)) :
    readFile s' p none = .ok c := by
  unfold writeFile at h
  by_cases hsz : s.maxSize < c.length
  · simp [hsz] at h
  · simp only [hsz, if_false, Except.ok.injEq, Prod.mk.injEq] at h
    obtain ⟨hs, hv⟩ := h
    subst hs
    unfold readFile
    rw [lookupPath_setPath]

theorem readFile_some_eq {s : Store} {p : String} {vs : List String}
    (hvs : lookupPath s p = some vs) (w : Nat) :
    readFile s p (some w)
      = if 1 ≤ w ∧ w ≤ vs.length then .ok (vs.getD (vs.length - w) "")
        else .error .versionNotFound := by
  unfold readFile
  rw [hvs]

theorem readFile_write_preserves {s s' : Store} {p c : String} {v w : Nat}
    (h : writeFile s p c = .ok (s', v)) (hw1 : 1 ≤ w)
    (hw2 : w ≤ currentVersion s p) :
    readFile s' p (some w) = readFile s p (some w) := by
  unfold writeFile at h
  by_cases hsz : s.maxSize < c.length
  · simp [hsz] at h
  · simp only [hsz, if_false, Except.ok.injEq, Prod.mk.injEq] at h
    obtain ⟨hs, hv⟩ := h
    subst hs
    unfold currentVersion at hw2
    cases hvs : lookupPath s p with
    | none =>
      rw [hvs] at hw2
      simp at hw2
      omega
    | some vs =>
      rw [hvs] at hw2
      simp only [Option.getD_some] at hw2
      simp only [Option.getD_some]
      have hnew : lookupPath (setPath s p (c :: vs)) p = some (c :: vs) :=
        lookupPath_setPath s p (c :: vs)
      rw [readFile_some_eq hnew w, readFile_some_eq hvs w]
      have hlt : w ≤ (c :: vs).length := by
        simp only [List.length_cons]
        omega
      rw [if_pos ⟨hw1, hlt⟩, if_pos ⟨hw1, hw2⟩]
      have hidx : (c :: vs).length - w = (vs.length - w) + 1 := by
        simp only [List.length_cons]
        omega
      rw [hidx, List.getD_cons_succ]

theorem writeSeq_version (p : String) (ws : List String) :
    ∀ s : Store, (∀ d ∈ ws, d.length ≤ s.maxSize) →
      currentVersion (writeSeq s p ws) p = currentVersion s p + ws.length := by
  induction ws with
  | nil =>
    intro s _
    rfl
  | cons c cs ih =>
    intro s hadm
    have hc : c.length ≤ s.maxSize := hadm c (by simp)
    have hstep : writeSeq s p (c :: cs)
        = writeSeq (setPath s p (c :: (lookupPath s p).getD [])) p cs := by
      conv_lhs => unfold writeSeq
      rw [writeFile_ok_of_le hc]
    rw [hstep]
    have hadm' : ∀ d ∈ cs,
        d.length ≤ (setPath s p (c :: (lookupPath s p).getD [])).maxSize := by
      intro d hd
      rw [maxSize_setPath]
      exact hadm d (List.mem_cons_of_mem c hd)
    rw [ih (setPath s p (c :: (lookupPath s p).getD [])) hadm']
    have hcur : currentVersion (setPath s p (c :: (lookupPath s p).getD [])) p
        = currentVersion s p + 1 := by
      simp [currentVersion, lookupPath_setPath]
    rw [hcur]
    simp only [List.length_cons]
    omega

/-- Claim C1: for every path and every content c within the store's
admissible size, writing c to the path and then reading that path returns
exactly c. -/
theorem contextStore_write_read_roundtrip (s : Store) (p c : String)
    (h : c.length ≤ s.maxSize) :
    ∃ s' v, writeFile s p c = .ok (s', v) ∧ readFile s' p none = .ok c := by
  refine ⟨setPath s p (c :: (lookupPath s p).getD []), currentVersion s p + 1,
    writeFile_ok_of_le h, ?_⟩
  exact readFile_write_latest (writeFile_ok_of_le h)

theorem contextStore_write_read_roundtrip_witness :
    ∃ s' v, writeFile (Store.mk 100 []) "/drafts/a.md" "hello" = .ok (s', v) ∧
      readFile s' "/drafts/a.md" none = .ok "hello" :=
  contextStore_write_read_roundtrip (Store.mk 100 []) "/drafts/a.md" "hello"
    (by decide)

/-- Claim C5: no write mutates an existing entry in place: a write to an
existing path creates a new version whose number is one more than the
previous latest (so version numbers are strictly increasing), all previous
versions remain readable unchanged, a read without an explicit version
resolves to the latest committed version, and a serialized sequence of
concurrent writers loses no write (each successful write adds exactly one
version). -/
theorem contextStore_append_only_versioning (s s' : Store) (p c : String)
    (v : Nat) (h : writeFile s p c = .ok (s', v)) :
    v = currentVersion s p + 1 ∧
    currentVersion s' p = v ∧
    (∀ w, 1 ≤ w → w ≤ currentVersion s p →
      readFile s' p (some w) = readFile s p (some w)) ∧
    readFile s' p none = .ok c ∧
    (∀ ws : List String, (∀ d ∈ ws, d.length ≤ s'.maxSize) →
      currentVersion (writeSeq s' p ws) p = v + ws.length) := by
  obtain ⟨hv, hcur⟩ := currentVersion_write h
  refine ⟨hv, hcur, fun w hw1 hw2 => readFile_write_preserves h hw1 hw2,
    readFile_write_latest h, fun ws hadm => ?_⟩
  rw [writeSeq_version p ws s' hadm, hcur]

theorem contextStore_append_only_versioning_witness :
    2 = currentVersion (Store.mk 9 [("/p", ["old"])]) "/p" + 1 ∧
    currentVersion (Store.mk 9 [("/p", ["new", "old"])]) "/p" = 2 ∧
    (∀ w, 1 ≤ w → w ≤ currentVersion (Store.mk 9 [("/p", ["old"])]) "/p" →
      readFile (Store.mk 9 [("/p", ["new", "old"])]) "/p" (some w)
        = readFile (Store.mk 9 [("/p", ["old"])]) "/p" (some w)) ∧
    readFile (Store.mk 9 [("/p", ["new", "old"])]) "/p" none = .ok "new" ∧
    (∀ ws : List String,
      (∀ d ∈ ws, d.length ≤ (Store.mk 9 [("/p", ["new", "old"])]).maxSize) →
      currentVersion (writeSeq (Store.mk 9 [("/p", ["new", "old"])]) "/p" ws) "/p"
        = 2 + ws.length) := by
  have h := contextStore_append_only_versioning (Store.mk 9 [("/p", ["old"])])
    (Store.mk 9 [("/p", ["new", "old"])]) "/p" "new" 2 rfl
  obtain ⟨h1, h2, h3, h4, h5⟩ := h
  exact ⟨h1, h2, h3, h4, h5⟩

/- ## Batch edits (spec section 4.2, design.md FileSystemManager.edit_file) -/

/-- A single line-range edit with 1-based inclusive line numbers
(design.md declares edit_file(path, edits) only as a stub). -/
structure Edit where
  start_line : Nat
  end_line : Nat
  new_content : List String
  deriving DecidableEq

/-- Split a character list into lines at newline characters. -/
def splitNl : List Char → List (List Char)
  | [] => [[]]
  | ch :: rest =>
    let r := splitNl rest
    if ch = '\n' then [] :: r
    else
      match r with
      | [] => [[ch]]
      | l :: ls => (ch :: l) :: ls

/-- The lines of a content string. -/
def splitLines (s : String) : List String := (splitNl s.data).map String.mk

/-- Join lines with newline characters. -/
def joinNl : List (List Char) → List Char
  | [] => []
  | [l] => l
  | l :: ls => l ++ '\n' :: joinNl ls

/-- Rebuild a content string from its lines. -/
def joinLines (ls : List String) : String := String.mk (joinNl (ls.map String.data))

/-- Modelled from the spec: a line range is valid when it lies in bounds of
the current content. -/
def editInBounds (numLines : Nat) (e : Edit) : Bool :=
  decide (1 ≤ e.start_line) && decide (e.start_line ≤ e.end_line)
    && decide (e.end_line ≤ numLines)

/-- Two inclusive line ranges overlap. -/
def editsOverlap (a b : Edit) : Bool :=
  decide (a.start_line ≤ b.end_line) && decide (b.start_line ≤ a.end_line)

/-- No two listed edits overlap. -/
def pairwiseDisjoint : List Edit → Bool
  | [] => true
  | e :: rest => rest.all (fun f => !(editsOverlap e f)) && pairwiseDisjoint rest

/-- Modelled from the spec: edits are validated first — line ranges in
bounds and non-overlapping. -/
def editsValid (numLines : Nat) (es : List Edit) : Bool :=
  es.all (editInBounds numLines) && pairwiseDisjoint es

/-- Apply one edit: replace lines start_line..end_line (1-based inclusive). -/
def applyEdit (lines : List String) (e : Edit) : List String :=
  lines.take (e.start_line - 1) ++ e.new_content ++ lines.drop e.end_line

/-- Insert into a list sorted by descending start_line. -/
def insertDesc (e : Edit) : List Edit → List Edit
  | [] => [e]
  | f :: rest =>
    if f.start_line ≤ e.start_line then e :: f :: rest else f :: insertDesc e rest

/-- Sort edits by descending start_line, highest line range first. -/
def sortEditsDesc : List Edit → List Edit
  | [] => []
  | e :: rest => insertDesc e (sortEditsDesc rest)

/-- Modelled from the spec: valid edits are applied from the highest line
range downward so earlier-computed ranges remain valid as lines shift. -/
def applyEdits (lines : List String) (es : List Edit) : List String :=
  (sortEditsDesc es).foldl applyEdit lines

/-- Modelled from the spec: edit(path, edits) is batch and all-or-nothing:
edits are validated first; if any is invalid the whole call fails with no
version created; otherwise the edited content is written as exactly one new
version. -/
def editFile (s : Store) (p : String) (es : List Edit) :
    Except StoreError (Store × Nat) :=
  match readFile s p none with
  | .error e => .error e
  | .ok content =>
    let lines := splitLines content
    if editsValid lines.length es then writeFile s p (joinLines (applyEdits lines es))
    else .error .invalidEdit

theorem editsOverlap_symm (a b : Edit) : editsOverlap a b = editsOverlap b a := by
  unfold editsOverlap
  by_cases h1 : a.start_line ≤ b.end_line <;> by_cases h2 : b.start_line ≤ a.end_line <;>
    simp [h1, h2]

theorem pairwiseDisjoint_false_of_overlap {es : List Edit} {a b : Edit}
    (ha : a ∈ es) (hb : b ∈ es) (hne : a ≠ b) (hov : editsOverlap a b = true) :
    pairwiseDisjoint es = false := by
  induction es with
  | nil => cases ha
  | cons e rest ih =>
    unfold pairwiseDisjoint
    rcases List.mem_cons.mp ha with hae | har
    · rcases List.mem_cons.mp hb with hbe | hbr
      · exact absurd (hae.trans hbe.symm) hne
      · have : rest.all (fun f => !(editsOverlap e f)) = false := by
          rw [List.all_eq_false]
          exact ⟨b, hbr, by simp [← hae, hov]⟩
        simp [this]
    · rcases List.mem_cons.mp hb with hbe | hbr
      · have hea : editsOverlap e a = true := by
          rw [editsOverlap_symm e a, ← hbe]
          exact hov
        have : rest.all (fun f => !(editsOverlap e f)) = false := by
          rw [List.all_eq_false]
          exact ⟨a, har, by simp [hea]⟩
        simp [this]
      · simp [ih har hbr]

/-- Claim C2: for every batch edit call edit(path, edits), either every
listed line range is valid (in bounds and non-overlapping) and all edits
are applied from the highest line range downward producing exactly one new
version, or the whole call fails with no version created and the stored
content unchanged; edits with overlapping ranges are always rejected. -/
theorem contextStore_edit_atomicity (s : Store) (p : String) (es : List Edit)
    (content : String) (hread : readFile s p none = .ok content) :
    (∀ s' v, editFile s p es = .ok (s', v) →
      editsValid (splitLines content).length es = true ∧
      v = currentVersion s p + 1 ∧
      currentVersion s' p = v ∧
      readFile s' p none = .ok (joinLines (applyEdits (splitLines content) es)) ∧
      (∀ w, 1 ≤ w → w ≤ currentVersion s p →
        readFile s' p (some w) = readFile s p (some w))) ∧
    (editsValid (splitLines content).length es = false →
      editFile s p es = .error .invalidEdit) ∧
    (∀ a b, a ∈ es → b ∈ es → a ≠ b → editsOverlap a b = true →
      editFile s p es = .error .invalidEdit) := by
  have hstep : editFile s p es
      = (if editsValid (splitLines content).length es
          then writeFile s p (joinLines (applyEdits (splitLines content) es))
          else .error .invalidEdit) := by
    unfold editFile
    rw [hread]
  by_cases hvalid : editsValid (splitLines content).length es = true
  · simp only [hvalid, if_true] at hstep
    refine ⟨?_, ?_, ?_⟩
    · intro s' v h
      rw [hstep] at h
      obtain ⟨hv, hcur⟩ := currentVersion_write h
      exact ⟨hvalid, hv, hcur, readFile_write_latest h,
        fun w h1 h2 => readFile_write_preserves h h1 h2⟩
    · intro hfalse
      rw [hvalid] at hfalse
      cases hfalse
    · intro a b ha hb hne hov
      have hpd := pairwiseDisjoint_false_of_overlap ha hb hne hov
      have hev : editsValid (splitLines content).length es = false := by
        unfold editsValid
        rw [hpd, Bool.and_false]
      rw [hev] at hvalid
      cases hvalid
  · have hfalse : editsValid (splitLines content).length es = false := by
      cases h : editsValid (splitLines content).length es
      · rfl
      · exact absurd h hvalid
    simp only [hfalse, Bool.false_eq_true, if_false] at hstep
    refine ⟨?_, fun _ => hstep, fun _ _ _ _ _ _ => hstep⟩
    intro s' v h
    rw [hstep] at h
    cases h

theorem contextStore_edit_atomicity_witness :
    (∀ s' v,
      editFile (Store.mk 1000 [("/d", ["l1\nl2\nl3"])]) "/d"
        [Edit.mk 2 2 ["L2"]] = .ok (s', v) →
      editsValid (splitLines "l1\nl2\nl3").length [Edit.mk 2 2 ["L2"]] = true ∧
      v = currentVersion (Store.mk 1000 [("/d", ["l1\nl2\nl3"])]) "/d" + 1 ∧
      currentVersion s' "/d" = v ∧
      readFile s' "/d" none
        = .ok (joinLines (applyEdits (splitLines "l1\nl2\nl3") [Edit.mk 2 2 ["L2"]])) ∧
      (∀ w, 1 ≤ w → w ≤ currentVersion (Store.mk 1000 [("/d", ["l1\nl2\nl3"])]) "/d" →
        readFile s' "/d" (some w)
          = readFile (Store.mk 1000 [("/d", ["l1\nl2\nl3"])]) "/d" (some w))) ∧
    (editsValid (splitLines "l1\nl2\nl3").length [Edit.mk 2 2 ["L2"]] = false →
      editFile (Store.mk 1000 [("/d", ["l1\nl2\nl3"])]) "/d"
        [Edit.mk 2 2 ["L2"]] = .error .invalidEdit) ∧
    (∀ a b, a ∈ [Edit.mk 2 2 ["L2"]] → b ∈ [Edit.mk 2 2 ["L2"]] → a ≠ b →
      editsOverlap a b = true →
      editFile (Store.mk 1000 [("/d", ["l1\nl2\nl3"])]) "/d"
        [Edit.mk 2 2 ["L2"]] = .error .invalidEdit) :=
  contextStore_edit_atomicity (Store.mk 1000 [("/d", ["l1\nl2\nl3"])]) "/d"
    [Edit.mk 2 2 ["L2"]] "l1\nl2\nl3" rfl

/- ## Task Planner (spec section 4.1, design.md TaskPlanner) -/

/-- PlanTask status (spec section 3; design.md lists pending, in_progress,
completed and the spec adds failed). -/
inductive TaskStatus where
  | pending
  | in_progress
  | completed
  | failed
  deriving DecidableEq

/-- PlanTask, as declared in design.md (id, title, description, status,
dependency ids). -/
structure PlanTask where
  id : Nat
  title : String
  description : String
  status : TaskStatus
  dependencies : List Nat
  deriving DecidableEq

/-- WritingPlan, as declared in design.md (goal plus tasks). -/
structure WritingPlan where
  goal : String
  tasks : List PlanTask
  deriving DecidableEq

/-- The error raised when a plan mutation would violate planner invariants. -/
inductive PlanningError where
  | planningError
  deriving DecidableEq

/-- PlanTask ids are unique within a plan (tasks are keyed by id). -/
def idsNodup (ts : List PlanTask) : Bool := decide (ts.map (fun t => t.id)).Nodup

/-- Dependency edge: the task with id u depends on id d. -/
def depEdge (ts : List PlanTask) (u d : Nat) : Prop :=
  ∃ t ∈ ts, t.id = u ∧ d ∈ t.dependencies

/-- A nonempty dependency path through the task graph. -/
inductive DepPath (ts : List PlanTask) : Nat → Nat → Prop where
  | single {u d : Nat} : depEdge ts u d → DepPath ts u d
  | cons {u d v : Nat} : depEdge ts u d → DepPath ts d v → DepPath ts u v

/-- Tasks not yet removed whose dependencies have all been removed. -/
def removableTasks (ts : List PlanTask) (done : List Nat) : List PlanTask :=
  ts.filter (fun t =>
    !(decide (t.id ∈ done)) && t.dependencies.all (fun d => decide (d ∈ done)))

/-- Kahn-style topological sort with explicit fuel: repeatedly remove tasks
all of whose dependencies are removed; succeeds with the removal order
exactly when the dependency graph is acyclic. -/
def kahnGo (ts : List PlanTask) : Nat → List Nat → Option (List Nat)
  | 0, done => if ts.all (fun t => decide (t.id ∈ done)) then some done else none
  | fuel + 1, done =>
    if ts.all (fun t => decide (t.id ∈ done)) then some done
    else
      let r := removableTasks ts done
      if r.isEmpty then none
      else kahnGo ts fuel (done ++ r.map (fun t => t.id))

/-- Modelled from the spec (design note section 9): the topological-sort
check run on every plan mutation. -/
def topoOrderOf (ts : List PlanTask) : Option (List Nat) := kahnGo ts ts.length []

/-- ord is a topological order: every task id occurs in ord, and whenever a
task id occurs among the first n+1 entries, each of its dependencies occurs
among the first n. -/
def isTopoOrder (ts : List PlanTask) (ord : List Nat) : Prop :=
  (∀ t ∈ ts, t.id ∈ ord) ∧
  (∀ t ∈ ts, ∀ d ∈ t.dependencies, ∀ n, t.id ∈ ord.take (n + 1) → d ∈ ord.take n)

/-- The invariant maintained by kahnGo for its removal list. -/
def InvDone (ts : List PlanTask) (done : List Nat) : Prop :=
  ∀ t ∈ ts, ∀ d ∈ t.dependencies, ∀ n, t.id ∈ done.take (n + 1) → d ∈ done.take n

/-- Modelled from the spec: plan(goal, context) validates the decomposition
proposed by the black-box completion capability: at least one task (an
empty proposal becomes a single task for the goal itself), unique task ids,
and an acyclic dependency graph; otherwise a PlanningError. -/
def planGoal (goal : String) (proposed : List PlanTask) :
    Except PlanningError WritingPlan :=
  let ts := if proposed.isEmpty then [PlanTask.mk 1 goal goal .pending []] else proposed
  if idsNodup ts then
    match topoOrderOf ts with
    | some _ => .ok (WritingPlan.mk goal ts)
    | none => .error .planningError
  else .error .planningError

/-- The task list with one dependency edge u → d added. -/
def tasksWithDep (ts : List PlanTask) (u d : Nat) : List PlanTask :=
  ts.map (fun t =>
    if t.id = u then { t with dependencies := d :: t.dependencies } else t)

/-- Modelled from the spec (design note section 9): a mutation that adds a
dependency edge re-runs the topological-sort check and is rejected with a
PlanningError when the edge would close a cycle. -/
def addDependency (p : WritingPlan) (u d : Nat) :
    Except PlanningError WritingPlan :=
  let ts := tasksWithDep p.tasks u d
  if idsNodup ts then
    match topoOrderOf ts with
    | some _ => .ok (WritingPlan.mk p.goal ts)
    | none => .error .planningError
  else .error .planningError

theorem indexOf_lt_of_mem_take {i : Nat} :
    ∀ (ord : List Nat) (n : Nat), i ∈ ord.take n → List.indexOf i ord < n := by
  intro ord
  induction ord with
  | nil =>
    intro n h
    simp at h
  | cons a l ih =>
    intro n h
    cases n with
    | zero => simp at h
    | succ m =>
      rw [List.take_succ_cons] at h
      by_cases hia : i = a
      · subst hia
        rw [List.indexOf_cons_self]
        omega
      · have hm : i ∈ l.take m := by
          rcases List.mem_cons.mp h with h1 | h2
          · exact absurd h1 hia
          · exact h2
        have := ih m hm
        rw [List.indexOf_cons_ne l (fun hh => hia hh.symm)]
        omega

theorem mem_take_indexOf_succ {i : Nat} :
    ∀ ord : List Nat, i ∈ ord → i ∈ ord.take (List.indexOf i ord + 1) := by
  intro ord
  induction ord with
  | nil =>
    intro h
    cases h
  | cons a l ih =>
    intro h
    by_cases hia : i = a
    · subst hia
      rw [List.indexOf_cons_self, List.take_succ_cons]
      exact List.mem_cons_self i (l.take 0)
    · have hl : i ∈ l := by
        rcases List.mem_cons.mp h with h1 | h2
        · exact absurd h1 hia
        · exact h2
      rw [List.indexOf_cons_ne l (fun hh => hia hh.symm), Nat.succ_eq_add_one,
        List.take_succ_cons]
      exact List.mem_cons_of_mem a (ih hl)

theorem depEdge_indexOf_lt {ts : List PlanTask} {ord : List Nat}
    (hord : isTopoOrder ts ord) {u d : Nat} (h : depEdge ts u d) :
    List.indexOf d ord < List.indexOf u ord := by
  obtain ⟨hall, hbefore⟩ := hord
  obtain ⟨t, ht, htu, htd⟩ := h
  have hu : u ∈ ord := htu ▸ hall t ht
  have humem : u ∈ ord.take (List.indexOf u ord + 1) := mem_take_indexOf_succ ord hu
  have hdmem := hbefore t ht d htd (List.indexOf u ord) (by rw [htu]; exact humem)
  exact indexOf_lt_of_mem_take ord (List.indexOf u ord) hdmem

theorem depPath_indexOf_lt {ts : List PlanTask} {ord : List Nat}
    (hord : isTopoOrder ts ord) {u v : Nat} (h : DepPath ts u v) :
    List.indexOf v ord < List.indexOf u ord := by
  induction h with
  | single he => exact depEdge_indexOf_lt hord he
  | cons he _ ih => exact lt_trans ih (depEdge_indexOf_lt hord he)

theorem isTopoOrder_no_cycle {ts : List PlanTask} {ord : List Nat}
    (hord : isTopoOrder ts ord) (i : Nat) : ¬ DepPath ts i i := fun h =>
  lt_irrefl _ (depPath_indexOf_lt hord h)

theorem InvDone_nil (ts : List PlanTask) : InvDone ts [] := by
  intro t ht d hd n hmem
  simp at hmem

theorem InvDone_append {ts : List PlanTask}
    (hinj : ∀ t1 ∈ ts, ∀ t2 ∈ ts, t1.id = t2.id → t1 = t2)
    {done : List Nat} (hInv : InvDone ts done) :
    InvDone ts (done ++ (removableTasks ts done).map (fun t => t.id)) := by
  intro t ht d hd n hmem
  by_cases hn : n + 1 ≤ done.length
  · rw [List.take_append_of_le_length hn] at hmem
    have := hInv t ht d hd n hmem
    rw [List.take_append_of_le_length (by omega)]
    exact this
  · have hlen : done.length ≤ n := by omega
    have hddone : d ∈ done := by
      by_cases hid : t.id ∈ done
      · have hpos : 0 < done.length := List.length_pos_of_mem hid
        have h1 : t.id ∈ done.take ((done.length - 1) + 1) := by
          have heq : (done.length - 1) + 1 = done.length := by omega
          rw [heq, List.take_length]
          exact hid
        exact List.mem_of_mem_take (hInv t ht d hd (done.length - 1) h1)
      · have hmem' : t.id ∈ done ++ (removableTasks ts done).map (fun t => t.id) :=
          List.mem_of_mem_take hmem
        have hbatch : t.id ∈ (removableTasks ts done).map (fun t => t.id) := by
          rcases List.mem_append.mp hmem' with h1 | h2
          · exact absurd h1 hid
          · exact h2
        obtain ⟨rt, hrt, hrtid⟩ := List.mem_map.mp hbatch
        have hrts : rt ∈ ts := List.mem_of_mem_filter hrt
        have hrteq : rt = t := hinj rt hrts t ht hrtid
        have hcond := (List.mem_filter.mp hrt).2
        rw [hrteq] at hcond
        simp only [Bool.and_eq_true] at hcond
        have hdeps := hcond.2
        have := List.all_eq_true.mp hdeps d hd
        simpa using this
    rw [List.take_append_eq_append_take, List.take_of_length_le hlen]
    exact List.mem_append_left _ hddone

theorem kahnGo_sound {ts : List PlanTask}
    (hinj : ∀ t1 ∈ ts, ∀ t2 ∈ ts, t1.id = t2.id → t1 = t2) :
    ∀ (fuel : Nat) (done ord : List Nat), InvDone ts done →
      kahnGo ts fuel done = some ord → isTopoOrder ts ord := by
  intro fuel
  induction fuel with
  | zero =>
    intro done ord hInv h
    unfold kahnGo at h
    by_cases hall : ts.all (fun t => decide (t.id ∈ done)) = true
    · rw [if_pos hall] at h
      obtain rfl : done = ord := Option.some.inj h
      refine ⟨fun t ht => ?_, hInv⟩
      have := List.all_eq_true.mp hall t ht
      simpa using this
    · rw [if_neg hall] at h
      cases h
  | succ fuel ih =>
    intro done ord hInv h
    unfold kahnGo at h
    by_cases hall : ts.all (fun t => decide (t.id ∈ done)) = true
    · rw [if_pos hall] at h
      obtain rfl : done = ord := Option.some.inj h
      refine ⟨fun t ht => ?_, hInv⟩
      have := List.all_eq_true.mp hall t ht
      simpa using this
    · rw [if_neg hall] at h
      by_cases hr : (removableTasks ts done).isEmpty = true
      · rw [if_pos hr] at h
        cases h
      · rw [if_neg hr] at h
        exact ih (done ++ (removableTasks ts done).map (fun t => t.id)) ord
          (InvDone_append hinj hInv) h

theorem idsNodup_inj {ts : List PlanTask} (h : idsNodup ts = true) :
    ∀ t1 ∈ ts, ∀ t2 ∈ ts, t1.id = t2.id → t1 = t2 := by
  have hnd : (ts.map (fun t => t.id)).Nodup := of_decide_eq_true h
  intro t1 h1 t2 h2 he
  exact List.inj_on_of_nodup_map hnd h1 h2 he

theorem addDependency_rejects_cycle (q : WritingPlan) (u d : Nat)
    (hcyc : ∃ i, DepPath (tasksWithDep q.tasks u d) i i) :
    addDependency q u d = .error .planningError := by
  obtain ⟨i, hcyc⟩ := hcyc
  unfold addDependency
  by_cases hnod : idsNodup (tasksWithDep q.tasks u d) = true
  · rw [if_pos hnod]
    cases hto : topoOrderOf (tasksWithDep q.tasks u d) with
    | none => rfl
    | some ord =>
      exfalso
      have hord := kahnGo_sound (idsNodup_inj hnod) (tasksWithDep q.tasks u d).length
        [] ord (InvDone_nil _) hto
      exact isTopoOrder_no_cycle hord i hcyc
  · rw [if_neg hnod]

/-- Claim C3: for every goal accepted by the Planner, plan(goal, context)
produces a Plan containing at least one Task whose dependency edges form an
acyclic graph (no dependency path from any task id back to itself), and any
mutation whose added edge would close a cycle is rejected with a
PlanningError. -/
theorem planner_plan_acyclic (goal : String) (proposed : List PlanTask)
    (p : WritingPlan) (hok : planGoal goal proposed = .ok p) :
    1 ≤ p.tasks.length ∧ (∀ i, ¬ DepPath p.tasks i i) ∧
    (∀ (q : WritingPlan) (u d : Nat),
      (∃ i, DepPath (tasksWithDep q.tasks u d) i i) →
      addDependency q u d = .error .planningError) := by
  unfold planGoal at hok
  by_cases hnod : idsNodup
      (if proposed.isEmpty then [PlanTask.mk 1 goal goal .pending []] else proposed)
      = true
  · rw [if_pos hnod] at hok
    cases hto : topoOrderOf
        (if proposed.isEmpty then [PlanTask.mk 1 goal goal .pending []] else proposed) with
    | none =>
      rw [hto] at hok
      cases hok
    | some ord =>
      rw [hto] at hok
      obtain rfl : WritingPlan.mk goal
          (if proposed.isEmpty then [PlanTask.mk 1 goal goal .pending []] else proposed)
          = p := Except.ok.inj hok
      refine ⟨?_, ?_, addDependency_rejects_cycle⟩
      · by_cases he : proposed.isEmpty = true
        · simp [he]
        · have : proposed ≠ [] := by
            intro hh
            rw [hh] at he
            exact he rfl
          have hpos : 0 < proposed.length := List.length_pos.mpr this
          simp only [he, Bool.false_eq_true, if_false]
          omega
      · intro i
        have hord := kahnGo_sound (idsNodup_inj hnod) _ [] ord (InvDone_nil _) hto
        exact isTopoOrder_no_cycle hord i
  · rw [if_neg hnod] at hok
    cases hok

theorem planner_plan_acyclic_witness :
    1 ≤ (WritingPlan.mk "draft an outline"
      [PlanTask.mk 1 "research" "collect sources" .pending [],
       PlanTask.mk 2 "outline" "write the outline" .pending [1]]).tasks.length ∧
    (∀ i, ¬ DepPath (WritingPlan.mk "draft an outline"
      [PlanTask.mk 1 "research" "collect sources" .pending [],
       PlanTask.mk 2 "outline" "write the outline" .pending [1]]).tasks i i) ∧
    (∀ (q : WritingPlan) (u d : Nat),
      (∃ i, DepPath (tasksWithDep q.tasks u d) i i) →
      addDependency q u d = .error .planningError) :=
  planner_plan_acyclic "draft an outline"
    [PlanTask.mk 1 "research" "collect sources" .pending [],
     PlanTask.mk 2 "outline" "write the outline" .pending [1]]
    (WritingPlan.mk "draft an outline"
      [PlanTask.mk 1 "research" "collect sources" .pending [],
       PlanTask.mk 2 "outline" "write the outline" .pending [1]]) rfl

/-- A dependency id counts as completed when the task with that id exists
and has completed status. -/
def depCompleted (ts : List PlanTask) (d : Nat) : Bool :=
  match ts.find? (fun t => t.id = d) with
  | some t => decide (t.status = TaskStatus.completed)
  | none => false

/-- Modelled from the spec: a task is runnable when its own status is
pending and all its dependencies are completed. -/
def runnableTask (ts : List PlanTask) (t : PlanTask) : Bool :=
  decide (t.status = TaskStatus.pending) && t.dependencies.all (depCompleted ts)

/-- The task with the lowest id in a list (ties resolved to the earliest). -/
def lowestIdTask : List PlanTask → Option PlanTask
  | [] => none
  | t :: rest =>
    match lowestIdTask rest with
    | none => some t
    | some u => if t.id ≤ u.id then some t else some u

/-- Modelled from the spec: next(plan) returns the lowest-id task among the
runnable ones and none when no task is runnable; returning none while tasks
remain incomplete signals a blocked state, not a failure. -/
def nextTask (p : WritingPlan) : Option PlanTask :=
  lowestIdTask (p.tasks.filter (runnableTask p.tasks))

theorem lowestIdTask_eq_none : ∀ l : List PlanTask, lowestIdTask l = none → l = [] := by
  intro l h
  cases l with
  | nil => rfl
  | cons a rest =>
    exfalso
    unfold lowestIdTask at h
    cases hr : lowestIdTask rest with
    | none =>
      rw [hr] at h
      cases h
    | some u =>
      rw [hr] at h
      dsimp only at h
      by_cases hle : a.id ≤ u.id
      · rw [if_pos hle] at h
        cases h
      · rw [if_neg hle] at h
        cases h

theorem lowestIdTask_spec : ∀ (l : List PlanTask) (t : PlanTask),
    lowestIdTask l = some t → t ∈ l ∧ ∀ u ∈ l, t.id ≤ u.id := by
  intro l
  induction l with
  | nil =>
    intro t h
    cases h
  | cons a rest ih =>
    intro t h
    unfold lowestIdTask at h
    cases hr : lowestIdTask rest with
    | none =>
      rw [hr] at h
      obtain rfl : a = t := Option.some.inj h
      have hrest := lowestIdTask_eq_none rest hr
      subst hrest
      refine ⟨List.mem_cons_self a [], ?_⟩
      intro u hu
      rcases List.mem_cons.mp hu with h1 | h2
      · rw [h1]
      · cases h2
    | some u =>
      rw [hr] at h
      dsimp only at h
      obtain ⟨hmem, hmin⟩ := ih u hr
      by_cases hle : a.id ≤ u.id
      · rw [if_pos hle] at h
        obtain rfl : a = t := Option.some.inj h
        refine ⟨List.mem_cons_self a rest, ?_⟩
        intro w hw
        rcases List.mem_cons.mp hw with h1 | h2
        · rw [h1]
        · exact le_trans hle (hmin w h2)
      · rw [if_neg hle] at h
        obtain rfl : u = t := Option.some.inj h
        refine ⟨List.mem_cons_of_mem a hmem, ?_⟩
        intro w hw
        rcases List.mem_cons.mp hw with h1 | h2
        · rw [h1]
          omega
        · exact hmin w h2

/-- Claim C4: next(plan) returns the lowest-id task among the tasks whose
dependencies are all completed and whose own status is pending; when no
task is runnable, next(plan) returns none (so a plan with incomplete but
blocked tasks yields none rather than a failure). -/
theorem planner_next_lowest_runnable (p : WritingPlan) :
    (∀ t, nextTask p = some t →
      t ∈ p.tasks ∧ runnableTask p.tasks t = true ∧
      ∀ u ∈ p.tasks, runnableTask p.tasks u = true → t.id ≤ u.id) ∧
    ((∀ u ∈ p.tasks, runnableTask p.tasks u = false) → nextTask p = none) := by
  constructor
  · intro t h
    obtain ⟨hmem, hmin⟩ := lowestIdTask_spec _ t h
    have h1 := List.mem_filter.mp hmem
    refine ⟨h1.1, h1.2, ?_⟩
    intro u hu hru
    exact hmin u (List.mem_filter.mpr ⟨hu, hru⟩)
  · intro hall
    unfold nextTask
    have hnil : p.tasks.filter (runnableTask p.tasks) = [] := by
      rw [List.filter_eq_nil_iff]
      intro a ha
      simp [hall a ha]
    rw [hnil]
    rfl

/- ## Sub-agent Manager (spec section 4.3, design.md SubAgentManager) -/

/-- Sub-agent types (design.md AgentType). -/
inductive AgentType where
  | research
  | translation
  | editing
  | factCheck
  deriving DecidableEq

/-- Error raised when spawning a worker with an unresolvable allowed path. -/
inductive SpawnError where
  | pathNotFound
  deriving DecidableEq

/-- Modelled from the spec: a spawned sub-agent task records the agent
type, the delegated task id and description, the allow-list, the projected
context captured at delegation time, and the result path.  The projection
is the worker's entire view of the store. -/
structure SubAgentTask where
  agentType : AgentType
  taskId : Nat
  taskDescription : String
  allowedPaths : List String
  projected : List (String × String)
  resultPath : String
  deriving DecidableEq

/-- Read the latest content of every allowed path; none if any path does
not resolve (the projected context must be a subset of paths existing at
delegation time, spec section 3 invariants). -/
def collectProjection (store : Store) : List String → Option (List (String × String))
  | [] => some []
  | p :: ps =>
    match readFile store p none with
    | .ok c =>
      match collectProjection store ps with
      | some rest => some ((p, c) :: rest)
      | none => none
    | .error _ => none

/-- Modelled from the spec: spawn(agent_type, task, allowed_paths) creates
an isolated worker whose only visible context is the content at
allowed_paths plus the task description; no other Plan or Context Store
data is part of the worker's state. -/
def spawnAgent (store : Store) (agentType : AgentType) (task : PlanTask)
    (allowedPaths : List String) : Except SpawnError SubAgentTask :=
  match collectProjection store allowedPaths with
  | some proj =>
    .ok ⟨agentType, task.id, task.description, allowedPaths, proj,
      "/results/task_" ++ toString task.id⟩
  | none => .error .pathNotFound

/-- Modelled from the spec: inside the worker, a read resolves only against
the projected context captured at spawn time. -/
def workerRead (sat : SubAgentTask) (p : String) : Option String :=
  (sat.projected.find? (fun e => e.fst = p)).map (fun e => e.snd)

theorem collectProjection_spec (store : Store) :
    ∀ (ps : List String) (proj : List (String × String)),
      collectProjection store ps = some proj →
      proj.map Prod.fst = ps ∧
      ∀ e ∈ proj, readFile store e.fst none = .ok e.snd := by
  intro ps
  induction ps with
  | nil =>
    intro proj h
    obtain rfl : [] = proj := Option.some.inj h
    exact ⟨rfl, fun e he => absurd he (List.not_mem_nil e)⟩
  | cons p ps ih =>
    intro proj h
    unfold collectProjection at h
    cases hr : readFile store p none with
    | error e =>
      rw [hr] at h
      cases h
    | ok c =>
      rw [hr] at h
      cases hrest : collectProjection store ps with
      | none =>
        rw [hrest] at h
        cases h
      | some rest =>
        rw [hrest] at h
        dsimp only at h
        obtain rfl : (p, c) :: rest = proj := Option.some.inj h
        obtain ⟨hmap, hread⟩ := ih rest hrest
        refine ⟨by simp [hmap], ?_⟩
        intro e he
        rcases List.mem_cons.mp he with h1 | h2
        · rw [h1]
          exact hr
        · exact hread e h2

theorem findMap_isSome_iff (l : List (String × String)) (p : String) :
    ((l.find? (fun e => e.fst = p)).map (fun e => e.snd)).isSome = true
      ↔ p ∈ l.map Prod.fst := by
  cases hf : l.find? (fun e => e.fst = p) with
  | none =>
    constructor
    · intro h
      cases h
    · intro hp
      obtain ⟨e, hmem, hpe⟩ := List.mem_map.mp hp
      have := List.find?_eq_none.mp hf e hmem
      exact absurd (by simp [hpe]) this
  | some e =>
    constructor
    · intro _
      have hep : e.fst = p := by
        have hpe := @List.find?_some (String × String)
          (fun x => decide (x.fst = p)) e l hf
        simpa using hpe
      rw [← hep]
      exact List.mem_map_of_mem Prod.fst (List.mem_of_find?_eq_some hf)
    · intro _
      rfl

theorem findMap_eq_some (l : List (String × String)) (p c : String)
    (h : (l.find? (fun e => e.fst = p)).map (fun e => e.snd) = some c) :
    ∃ e ∈ l, e.fst = p ∧ e.snd = c := by
  cases hf : l.find? (fun e => e.fst = p) with
  | none =>
    rw [hf] at h
    cases h
  | some e =>
    rw [hf] at h
    have hep : e.fst = p := by
      have hpe := @List.find?_some (String × String)
        (fun x => decide (x.fst = p)) e l hf
      simpa using hpe
    exact ⟨e, List.mem_of_find?_eq_some hf, hep, Option.some.inj h⟩

/-- Claim C6: for every sub-agent created by spawn(agent_type, task,
allowed_paths), the set of Context Store paths readable from inside the
worker is exactly the allowed_paths allow-list passed at spawn time (plus
the task description); anything the worker can read is the store content
of an allowed path at delegation time, so no other Plan or Context Store
data is reachable. -/
theorem subAgent_isolation (store : Store) (agentType : AgentType)
    (task : PlanTask) (allowedPaths : List String) (sat : SubAgentTask)
    (hok : spawnAgent store agentType task allowedPaths = .ok sat) :
    sat.allowedPaths = allowedPaths ∧
    sat.taskDescription = task.description ∧
    (∀ p, (workerRead sat p).isSome = true ↔ p ∈ allowedPaths) ∧
    (∀ p c, workerRead sat p = some c → p ∈ allowedPaths ∧
      readFile store p none = .ok c) := by
  unfold spawnAgent at hok
  cases hproj : collectProjection store allowedPaths with
  | none =>
    rw [hproj] at hok
    cases hok
  | some proj =>
    rw [hproj] at hok
    dsimp only at hok
    obtain rfl : (⟨agentType, task.id, task.description, allowedPaths, proj,
        "/results/task_" ++ toString task.id⟩ : SubAgentTask) = sat :=
      Except.ok.inj hok
    obtain ⟨hmap, hread⟩ := collectProjection_spec store allowedPaths proj hproj
    refine ⟨rfl, rfl, ?_, ?_⟩
    · intro p
      have hiff := findMap_isSome_iff proj p
      rw [hmap] at hiff
      exact hiff
    · intro p c hc
      obtain ⟨e, hmem, hep, hec⟩ := findMap_eq_some proj p c hc
      constructor
      · rw [← hmap, ← hep]
        exact List.mem_map_of_mem Prod.fst hmem
      · rw [← hep, ← hec]
        exact hread e hmem

theorem subAgent_isolation_witness :
    (SubAgentTask.mk .research 7 "check facts" ["/refs/notes.md"]
      [("/refs/notes.md", "note body")] "/results/task_7").allowedPaths
        = ["/refs/notes.md"] ∧
    (SubAgentTask.mk .research 7 "check facts" ["/refs/notes.md"]
      [("/refs/notes.md", "note body")] "/results/task_7").taskDescription
        = (PlanTask.mk 7 "fact check" "check facts" .pending []).description ∧
    (∀ p, (workerRead (SubAgentTask.mk .research 7 "check facts" ["/refs/notes.md"]
      [("/refs/notes.md", "note body")] "/results/task_7") p).isSome = true
        ↔ p ∈ ["/refs/notes.md"]) ∧
    (∀ p c, workerRead (SubAgentTask.mk .research 7 "check facts" ["/refs/notes.md"]
      [("/refs/notes.md", "note body")] "/results/task_7") p = some c →
      p ∈ ["/refs/notes.md"] ∧
      readFile (Store.mk 50 [("/refs/notes.md", ["note body"]), ("/secret", ["s"])])
        p none = .ok c) :=
  subAgent_isolation (Store.mk 50 [("/refs/notes.md", ["note body"]), ("/secret", ["s"])])
    .research (PlanTask.mk 7 "fact check" "check facts" .pending [])
    ["/refs/notes.md"]
    (SubAgentTask.mk .research 7 "check facts" ["/refs/notes.md"]
      [("/refs/notes.md", "note body")] "/results/task_7") rfl

/- ## Tool Protocol Adapter retry (spec sections 4.5 and 7; design.md
RetryConfig and RetryStrategy.get_delay) -/

/-- RetryConfig, embedded from design.md. -/
structure RetryConfig where
  max_attempts : Nat
  backoff_factor : ℚ
  max_delay : ℚ
  deriving DecidableEq

/-- The design.md defaults: max_attempts=3, backoff_factor=2.0,
max_delay=60.0. -/
def defaultRetryConfig : RetryConfig := ⟨3, 2, 60⟩

/-- Embedded from design.md RetryStrategy.get_delay:
min(self.config.backoff_factor ** attempt, self.config.max_delay). -/
def get_delay (cfg : RetryConfig) (attempt : Nat) : ℚ :=
  min (cfg.backoff_factor ^ attempt) cfg.max_delay

/-- Adapter connection states (spec section 4.5), with the persistent-error
state surfaced to the Orchestrator after bounded reconnect attempts. -/
inductive ConnState where
  | disconnected
  | connecting
  | connected
  | errorState
  | persistentError
  deriving DecidableEq

/-- Modelled from the spec: the delay waited before reconnect attempt k is
the exponential backoff of the source get_delay plus a jitter term drawn by
the environment. -/
def attemptDelay (cfg : RetryConfig) (jitter : Nat → ℚ) (k : Nat) : ℚ :=
  get_delay cfg k + jitter k

/-- Modelled from the spec: the reconnect loop makes at most the given
number of further attempts; outcomes k tells whether attempt k succeeds.
Returns the final state and the total number of attempts made. -/
def reconnectGo (outcomes : Nat → Bool) : Nat → Nat → ConnState × Nat
  | 0, attempt => (.persistentError, attempt)
  | fuel + 1, attempt =>
    if outcomes attempt then (.connected, attempt + 1)
    else reconnectGo outcomes fuel (attempt + 1)

/-- Modelled from the spec: on a connection error, if auto_reconnect is
set, retry up to cfg.max_attempts times and then surface a persistent
error; without auto_reconnect the error state is surfaced at once. -/
def reconnect (cfg : RetryConfig) (autoReconnect : Bool)
    (outcomes : Nat → Bool) : ConnState × Nat :=
  if autoReconnect then reconnectGo outcomes cfg.max_attempts 0
  else (.errorState, 0)

theorem reconnectGo_all_fail (outcomes : Nat → Bool)
    (hfail : ∀ k, outcomes k = false) :
    ∀ fuel attempt, reconnectGo outcomes fuel attempt
      = (.persistentError, attempt + fuel) := by
  intro fuel
  induction fuel with
  | zero =>
    intro attempt
    rfl
  | succ fuel ih =>
    intro attempt
    unfold reconnectGo
    rw [hfail attempt]
    rw [if_neg (by simp)]
    rw [ih (attempt + 1)]
    have : attempt + 1 + fuel = attempt + (fuel + 1) := by omega
    rw [this]

theorem reconnectGo_bounded (outcomes : Nat → Bool) :
    ∀ fuel attempt, (reconnectGo outcomes fuel attempt).2 ≤ attempt + fuel := by
  intro fuel
  induction fuel with
  | zero =>
    intro attempt
    simp [reconnectGo]
  | succ fuel ih =>
    intro attempt
    unfold reconnectGo
    by_cases h : outcomes attempt = true
    · rw [if_pos h]
      show attempt + 1 ≤ attempt + (fuel + 1)
      omega
    · rw [if_neg h]
      have := ih (attempt + 1)
      omega

/-- Claim C7: on a tool-server connection error with auto_reconnect set,
the adapter retries with exponential backoff plus jitter for at most a
bounded number of attempts (3 under the default 3-attempt policy) and then
surfaces a persistent-error state to the Orchestrator instead of retrying
indefinitely: when every attempt fails, the final state is persistentError
after exactly cfg.max_attempts attempts, any outcome sequence yields at
most cfg.max_attempts attempts, the backoff delay follows the source
formula min(backoff_factor ^ attempt, max_delay) (plus jitter) and never
exceeds max_delay + jitter. -/
theorem adapter_bounded_retry (cfg : RetryConfig) (outcomes : Nat → Bool)
    (jitter : Nat → ℚ) (hfail : ∀ k, outcomes k = false) :
    reconnect cfg true outcomes = (.persistentError, cfg.max_attempts) ∧
    (∀ oc : Nat → Bool, (reconnect cfg true oc).2 ≤ cfg.max_attempts) ∧
    (∀ k, attemptDelay cfg jitter k
      = min (cfg.backoff_factor ^ k) cfg.max_delay + jitter k) ∧
    (∀ k, attemptDelay cfg jitter k ≤ cfg.max_delay + jitter k) ∧
    defaultRetryConfig.max_attempts = 3 := by
  refine ⟨?_, ?_, fun k => rfl, ?_, rfl⟩
  · unfold reconnect
    rw [if_pos rfl, reconnectGo_all_fail outcomes hfail cfg.max_attempts 0]
    rw [Nat.zero_add]
  · intro oc
    unfold reconnect
    rw [if_pos rfl]
    have := reconnectGo_bounded oc cfg.max_attempts 0
    omega
  · intro k
    unfold attemptDelay get_delay
    have : min (cfg.backoff_factor ^ k) cfg.max_delay ≤ cfg.max_delay :=
      min_le_right _ _
    linarith

theorem adapter_bounded_retry_witness :
    reconnect defaultRetryConfig true (fun _ => false)
      = (.persistentError, defaultRetryConfig.max_attempts) ∧
    (∀ oc : Nat → Bool,
      (reconnect defaultRetryConfig true oc).2 ≤ defaultRetryConfig.max_attempts) ∧
    (∀ k, attemptDelay defaultRetryConfig (fun _ => 0) k
      = min (defaultRetryConfig.backoff_factor ^ k) defaultRetryConfig.max_delay
          + (fun _ : Nat => (0 : ℚ)) k) ∧
    (∀ k, attemptDelay defaultRetryConfig (fun _ => 0) k
      ≤ defaultRetryConfig.max_delay + (fun _ : Nat => (0 : ℚ)) k) ∧
    defaultRetryConfig.max_attempts = 3 :=
  adapter_bounded_retry defaultRetryConfig (fun _ => false) (fun _ => 0)
    (fun _ => rfl)

/- ## Configuration import/export (spec section 6; ConfigImportExport in
src/unnamed/part_008) -/

/-- Kind of a configuration entry (models and MCP servers appear in the
part_008 preview; skills in the spec). -/
inductive ConfigKind where
  | model
  | mcpServer
  | skill
  deriving DecidableEq

/-- A configuration entry keyed by name, with opaque key-value fields. -/
structure ConfigEntry where
  kind : ConfigKind
  name : String
  fields : List (String × String)
  deriving DecidableEq

/-- ValidationResult, embedded from the interface in src/unnamed/part_008
(valid flag, errors, warnings, preview counts of models and MCP servers). -/
structure ValidationResult where
  valid : Bool
  errors : List String
  warnings : List String
  models_count : Nat
  mcp_servers_count : Nat
  deriving DecidableEq

/-- Modelled from the spec: the backend /config/validate check — schema
correctness (nonempty, unique entry names) computed without applying
anything, plus the preview counts shown by part_008. -/
def validateConfig (cfg : List ConfigEntry) : ValidationResult :=
  let errors :=
    (if cfg.all (fun e => !(decide (e.name = ""))) then [] else ["entry with empty name"])
      ++ (if decide (cfg.map (fun e => e.name)).Nodup then []
          else ["duplicate entry name"])
  ⟨errors.isEmpty, errors, [],
    (cfg.filter (fun e => decide (e.kind = ConfigKind.model))).length,
    (cfg.filter (fun e => decide (e.kind = ConfigKind.mcpServer))).length⟩

/-- The conflict policy of spec section 6: overwrite, merge or skip. -/
inductive ConflictPolicy where
  | overwrite
  | merge
  | skip
  deriving DecidableEq

/-- Modelled from the spec: merging keeps the existing fields and adds the
incoming fields whose keys are not already present. -/
def mergeFields (existing incoming : List (String × String)) :
    List (String × String) :=
  existing ++ incoming.filter (fun kv => !(existing.any (fun e => e.fst = kv.fst)))

/-- Modelled from the spec: how a name conflict between an existing and an
incoming entry is resolved under each policy. -/
def resolveConflict (policy : ConflictPolicy) (existing incoming : ConfigEntry) :
    ConfigEntry :=
  match policy with
  | .overwrite => incoming
  | .skip => existing
  | .merge => ⟨existing.kind, existing.name, mergeFields existing.fields incoming.fields⟩

/-- Look up a stored entry by name. -/
def findEntry (entries : List ConfigEntry) (n : String) : Option ConfigEntry :=
  entries.find? (fun e => e.name = n)

/-- Insert one incoming entry, resolving a name conflict per the policy. -/
def upsertEntry (policy : ConflictPolicy) (entries : List ConfigEntry)
    (e : ConfigEntry) : List ConfigEntry :=
  if entries.any (fun x => x.name = e.name) then
    entries.map (fun x => if x.name = e.name then resolveConflict policy x e else x)
  else entries ++ [e]

/-- Error raised when an imported configuration fails validation. -/
inductive ImportError where
  | invalidConfig
  deriving DecidableEq

/-- Modelled from the spec: the backend /config/import applies the imported
tool-server and skill configuration only after it validates (nothing is
applied otherwise), resolving each conflict with an existing entry
according to the overwrite/merge/skip policy (part_008 sends the boolean
overwrite flag, i.e. overwrite or skip). -/
def importConfig (existing cfg : List ConfigEntry) (policy : ConflictPolicy) :
    Except ImportError (List ConfigEntry) :=
  if (validateConfig cfg).valid then .ok (cfg.foldl (upsertEntry policy) existing)
  else .error .invalidConfig

/-- The ConfigImportExport component state (src/unnamed/part_008): the
stored validation result and the overwrite checkbox. -/
structure ConfigUIState where
  validationResult : Option ValidationResult
  overwrite : Bool
  deriving DecidableEq

/-- Embedded from handleFileSelect (src/unnamed/part_008 lines 769-799):
a file that is not .json is refused outright; a file that fails parsing or
validation clears the stored validation result; otherwise the backend
validation result is stored.  validate stands for the POST /config/validate
round trip (none = parse or request failure). -/
def handleFileSelect (validate : String → Option ValidationResult)
    (st : ConfigUIState) (fileName fileContent : String) : ConfigUIState :=
  if !(fileName.endsWith ".json") then st
  else
    match validate fileContent with
    | some r => { st with validationResult := some r }
    | none => { st with validationResult := none }

/-- Embedded from handleImport (src/unnamed/part_008 lines 801-837): no
request to import is issued unless a validation result is present; the request
body carries the config file content and the overwrite flag. -/
def handleImport (st : ConfigUIState) (fileContent : String) :
    Option (String × Bool) :=
  match st.validationResult with
  | none => none
  | some _ => some (fileContent, st.overwrite)

theorem resolveConflict_name (policy : ConflictPolicy) (x e : ConfigEntry)
    (h : x.name = e.name) : (resolveConflict policy x e).name = e.name := by
  cases policy <;> simp [resolveConflict, h]

theorem find?_map_resolve_other (policy : ConflictPolicy) (e : ConfigEntry)
    (n : String) (hne : e.name ≠ n) :
    ∀ entries : List ConfigEntry,
      (entries.map (fun x => if x.name = e.name then resolveConflict policy x e
          else x)).find? (fun x => x.name = n)
        = entries.find? (fun x => x.name = n) := by
  intro entries
  induction entries with
  | nil => rfl
  | cons x rest ih =>
    simp only [List.map_cons]
    by_cases hx : x.name = e.name
    · rw [if_pos hx]
      have h1 : ¬ ((resolveConflict policy x e).name = n) := by
        rw [resolveConflict_name policy x e hx]
        exact hne
      have h2 : ¬ (x.name = n) := by
        rw [hx]
        exact hne
      rw [List.find?_cons_of_neg _ (by simpa using h1),
        List.find?_cons_of_neg _ (by simpa using h2), ih]
    · rw [if_neg hx]
      by_cases hxn : x.name = n
      · rw [List.find?_cons_of_pos _ (by simpa using hxn),
          List.find?_cons_of_pos _ (by simpa using hxn)]
      · rw [List.find?_cons_of_neg _ (by simpa using hxn),
          List.find?_cons_of_neg _ (by simpa using hxn), ih]

theorem find?_map_resolve_self (policy : ConflictPolicy) (e : ConfigEntry) :
    ∀ (entries : List ConfigEntry) (x : ConfigEntry),
      entries.find? (fun y => y.name = e.name) = some x →
      (entries.map (fun y => if y.name = e.name then resolveConflict policy y e
          else y)).find? (fun y => y.name = e.name)
        = some (resolveConflict policy x e) := by
  intro entries
  induction entries with
  | nil =>
    intro x h
    cases h
  | cons y rest ih =>
    intro x h
    simp only [List.map_cons]
    by_cases hy : y.name = e.name
    · rw [List.find?_cons_of_pos _ (by simpa using hy)] at h
      obtain rfl : y = x := Option.some.inj h
      rw [if_pos hy]
      rw [List.find?_cons_of_pos _ (by simpa using resolveConflict_name policy y e hy)]
    · rw [List.find?_cons_of_neg _ (by simpa using hy)] at h
      rw [if_neg hy]
      rw [List.find?_cons_of_neg _ (by simpa using hy)]
      exact ih x h

theorem findEntry_upsert_other (policy : ConflictPolicy)
    (entries : List ConfigEntry) (e : ConfigEntry) (n : String)
    (hne : e.name ≠ n) :
    findEntry (upsertEntry policy entries e) n = findEntry entries n := by
  unfold upsertEntry findEntry
  by_cases hp : entries.any (fun x => x.name = e.name) = true
  · rw [if_pos hp]
    exact find?_map_resolve_other policy e n hne entries
  · rw [if_neg hp]
    rw [List.find?_append]
    cases hfind : entries.find? (fun x => x.name = n) with
    | some x => rfl
    | none =>
      have : ([e].find? (fun x => x.name = n)) = none := by
        rw [List.find?_cons_of_neg _ (by simpa using hne)]
        rfl
      simp [this]

theorem findEntry_upsert_self (policy : ConflictPolicy)
    (entries : List ConfigEntry) (e : ConfigEntry) :
    findEntry (upsertEntry policy entries e) e.name
      = some (match findEntry entries e.name with
              | some x => resolveConflict policy x e
              | none => e) := by
  unfold upsertEntry findEntry
  by_cases hp : entries.any (fun x => x.name = e.name) = true
  · rw [if_pos hp]
    cases hfind : entries.find? (fun x => x.name = e.name) with
    | none =>
      exfalso
      obtain ⟨x, hmem, hx⟩ := List.any_eq_true.mp hp
      exact (List.find?_eq_none.mp hfind x hmem) hx
    | some x =>
      rw [find?_map_resolve_self policy e entries x hfind]
  · rw [if_neg hp]
    rw [List.find?_append]
    cases hfind : entries.find? (fun x => x.name = e.name) with
    | some x =>
      exfalso
      have hx : (fun y : ConfigEntry => decide (y.name = e.name)) x = true := by
        have := @List.find?_some ConfigEntry
          (fun y => decide (y.name = e.name)) x entries hfind
        simpa using this
      exact hp (List.any_eq_true.mpr ⟨x, List.mem_of_find?_eq_some hfind, hx⟩)
    | none =>
      have : ([e].find? (fun x => x.name = e.name)) = some e :=
        List.find?_cons_of_pos _ (by simp)
      simp [this]

theorem foldl_upsert_preserves (policy : ConflictPolicy) :
    ∀ (cfg acc : List ConfigEntry) (n : String),
      (∀ e ∈ cfg, e.name ≠ n) →
      findEntry (cfg.foldl (upsertEntry policy) acc) n = findEntry acc n := by
  intro cfg
  induction cfg with
  | nil =>
    intro acc n _
    rfl
  | cons e rest ih =>
    intro acc n hne
    rw [List.foldl_cons]
    rw [ih (upsertEntry policy acc e) n (fun x hx => hne x (List.mem_cons_of_mem e hx))]
    exact findEntry_upsert_other policy acc e n (hne e (List.mem_cons_self e rest))

theorem foldl_upsert_lookup (policy : ConflictPolicy) :
    ∀ cfg acc : List ConfigEntry,
      (cfg.map (fun e => e.name)).Nodup →
      ∀ e ∈ cfg,
        findEntry (cfg.foldl (upsertEntry policy) acc) e.name
          = some (match findEntry acc e.name with
                  | some x => resolveConflict policy x e
                  | none => e) := by
  intro cfg
  induction cfg with
  | nil =>
    intro acc _ e he
    cases he
  | cons f rest ih =>
    intro acc hnd e he
    have hpair : (∀ x ∈ rest, ¬ x.name = f.name) ∧
        (rest.map (fun x => x.name)).Nodup := by
      simpa using hnd
    have hnotmem : f.name ∉ rest.map (fun x => x.name) := by
      intro hmem
      obtain ⟨g, hg, hgname⟩ := List.mem_map.mp hmem
      exact hpair.1 g hg hgname
    have hnd' : (rest.map (fun x => x.name)).Nodup := hpair.2
    rw [List.foldl_cons]
    rcases List.mem_cons.mp he with heq | hr
    · subst heq
      have hrest : ∀ g ∈ rest, g.name ≠ e.name := by
        intro g hg hgname
        exact hnotmem (hgname ▸ List.mem_map_of_mem (fun x => x.name) hg)
      rw [foldl_upsert_preserves policy rest (upsertEntry policy acc e) e.name hrest]
      exact findEntry_upsert_self policy acc e
    · have hfn : f.name ≠ e.name := by
        intro heq
        exact hnotmem (heq ▸ List.mem_map_of_mem (fun x => x.name) hr)
      rw [ih (upsertEntry policy acc f) hnd' e hr,
        findEntry_upsert_other policy acc f e.name hfn]

theorem validateConfig_valid_nodup {cfg : List ConfigEntry}
    (h : (validateConfig cfg).valid = true) :
    (cfg.map (fun e => e.name)).Nodup := by
  by_cases hnd : decide (cfg.map (fun e => e.name)).Nodup = true
  · exact of_decide_eq_true hnd
  · exfalso
    unfold validateConfig at h
    rw [if_neg hnd] at h
    by_cases ha : cfg.all (fun e => !(decide (e.name = ""))) = true
    · rw [if_pos ha] at h
      simp at h
    · rw [if_neg ha] at h
      simp at h

/-- Claim C8: for every configuration passed to importConfig, the
tool-server and skill configuration is validated before any of it is
applied (an invalid configuration is rejected with nothing applied), and
name conflicts with existing entries are resolved according to the
overwrite/merge/skip conflict policy; the part_008 front end never issues
an import request before a validation response is stored, and its request
carries the config content and the overwrite flag. -/
theorem config_import_validated_policy (existing cfg : List ConfigEntry)
    (policy : ConflictPolicy) :
    ((validateConfig cfg).valid = false →
      importConfig existing cfg policy = .error .invalidConfig) ∧
    (∀ res, importConfig existing cfg policy = .ok res →
      (validateConfig cfg).valid = true ∧
      (∀ e ∈ cfg, findEntry res e.name
        = some (match findEntry existing e.name with
                | some x => resolveConflict policy x e
                | none => e)) ∧
      (∀ n, (∀ e ∈ cfg, e.name ≠ n) → findEntry res n = findEntry existing n)) ∧
    (∀ x e : ConfigEntry, resolveConflict .overwrite x e = e ∧
      resolveConflict .skip x e = x ∧
      (resolveConflict .merge x e).fields = mergeFields x.fields e.fields) ∧
    (∀ (st : ConfigUIState) (content : String),
      st.validationResult = none → handleImport st content = none) ∧
    (∀ (st : ConfigUIState) (content : String) (req : String × Bool),
      handleImport st content = some req → req = (content, st.overwrite)) := by
  refine ⟨?_, ?_, ?_, ?_, ?_⟩
  · intro hinvalid
    unfold importConfig
    rw [if_neg (by rw [hinvalid]; simp)]
  · intro res hok
    unfold importConfig at hok
    by_cases hv : (validateConfig cfg).valid = true
    · rw [if_pos hv] at hok
      obtain rfl : cfg.foldl (upsertEntry policy) existing = res := Except.ok.inj hok
      have hnd := validateConfig_valid_nodup hv
      exact ⟨hv, fun e he => foldl_upsert_lookup policy cfg existing hnd e he,
        fun n hn => foldl_upsert_preserves policy cfg existing n hn⟩
    · rw [if_neg hv] at hok
      cases hok
  · intro x e
    exact ⟨rfl, rfl, rfl⟩
  · intro st content hnone
    unfold handleImport
    rw [hnone]
  · intro st content req hreq
    unfold handleImport at hreq
    cases hval : st.validationResult with
    | none =>
      rw [hval] at hreq
      cases hreq
    | some r =>
      rw [hval] at hreq
      exact (Option.some.inj hreq).symm

/- ## APIClient.streamChat (src/unnamed/part_002 lines 464-498 and
src/unnamed/part_003 lines 148-182) -/

/-- Embedded from APIClient.streamChat, at the level of the lines the
generator iterates over: a line not starting with "data: " is ignored;
otherwise the payload after the six-character marker ends the stream when
it equals "[DONE]", is silently skipped when JSON.parse fails, and
otherwise yields its content field or the empty string (parsed.content ||
"").  parse stands for JSON.parse: none when the payload is not valid
JSON, otherwise the optional string content field of the parsed object. -/
def streamChatYields (parse : String → Option (Option String)) :
    List String → List String
  | [] => []
  | line :: rest =>
    if line.startsWith "data: " then
      if line.drop 6 = "[DONE]" then []
      else
        match parse (line.drop 6) with
        | none => streamChatYields parse rest
        | some content => (content.getD "") :: streamChatYields parse rest
    else streamChatYields parse rest

/-- The lines processed before termination: everything strictly before the
first data line whose payload is "[DONE]". -/
def untilDone : List String → List String
  | [] => []
  | line :: rest =>
    if line.startsWith "data: " ∧ line.drop 6 = "[DONE]" then []
    else line :: untilDone rest

/-- The claim's description of the yielded values: among the processed
lines, each line starting with "data: " whose payload parses as JSON
contributes exactly its content field (the empty string when the field is
absent); all other lines contribute nothing. -/
def specYields (parse : String → Option (Option String))
    (lines : List String) : List String :=
  (untilDone lines).filterMap (fun line =>
    if line.startsWith "data: " then (parse (line.drop 6)).map (fun c => c.getD "")
    else none)

/-- Claim C9: for every server-sent chat response stream, streamChat
yields, in order, exactly the content field of each line that starts with
"data: " and whose payload parses as JSON, yields the empty string when
the parsed object has no content field, silently skips payloads that are
not valid JSON, and terminates at the first payload equal to "[DONE]" or
at end of stream: the generator equals the claim-side description on every
line sequence and every JSON.parse behaviour. -/
theorem apiClient_streamChat_spec (parse : String → Option (Option String)) :
    ∀ lines : List String, streamChatYields parse lines = specYields parse lines := by
  intro lines
  induction lines with
  | nil => rfl
  | cons line rest ih =>
    rw [streamChatYields, specYields, untilDone]
    by_cases hs : line.startsWith "data: " = true
    · by_cases hd : line.drop 6 = "[DONE]"
      · rw [if_pos hs, if_pos hd, if_pos ⟨hs, hd⟩]
        rfl
      · rw [if_pos hs, if_neg hd, if_neg (by intro hc; exact hd hc.2)]
        cases hp : parse (line.drop 6) with
        | none =>
          rw [List.filterMap_cons]
          rw [if_pos hs, hp]
          exact ih
        | some content =>
          rw [List.filterMap_cons]
          rw [if_pos hs, hp]
          rw [ih]
          rfl
    · rw [if_neg hs, if_neg (by intro hc; exact hs hc.1)]
      rw [List.filterMap_cons, if_neg hs]
      exact ih

/- ## APIClient.request (src/unnamed/part_002 lines 292-346 and
src/unnamed/part_003 lines 28-65) -/

/-- A minimal JSON value, enough to carry a parsed response body and the
fields the client reads. -/
inductive Json where
  | str : String → Json
  | num : Int → Json
  | bool : Bool → Json
  | null : Json
  | arr : List Json → Json
  | obj : List (String × Json) → Json

/-- Property access on a parsed value (undefined on anything but an object
with the key, as in JavaScript). -/
def Json.getField : Json → String → Option Json
  | .obj fields, k => (fields.find? (fun f => f.fst = k)).map (fun f => f.snd)
  | _, _ => none

/-- JavaScript truthiness of a JSON value. -/
def Json.truthy : Json → Bool
  | .str s => !(decide (s = ""))
  | .num n => !(decide (n = 0))
  | .bool b => b
  | .null => false
  | .arr _ => true
  | .obj _ => true

/-- The JavaScript a || b on an optional field access (undefined and falsy
values fall through to b). -/
def jsOr (a : Option Json) (b : Json) : Json :=
  match a with
  | some v => if v.truthy then v else b
  | none => b

/-- What request observes of a fetch response: the ok flag, the HTTP
status, the statusText, and the result of response.json() — none when the
body is not valid JSON. -/
structure FetchResponse where
  ok : Bool
  status : Nat
  statusText : String
  json : Option Json

/-- The outcome of request: the parsed body of an ok response, a thrown
ApiError (message, HTTP status, optional code field), or the propagated
parse failure of an ok response whose body is not JSON. -/
inductive RequestResult where
  | ok : Json → RequestResult
  | apiError : Json → Nat → Option Json → RequestResult
  | parseError : RequestResult

/-- Embedded from APIClient.request: one fetch is issued; when
response.ok is false an ApiError is thrown whose status is
response.status and whose message is errorData.message || errorData.detail
|| response.statusText (statusText alone when the error body is not
JSON); when response.ok is true the body parsed as JSON is returned.
fetches gives the environment's response to each successive fetch call;
the second component counts the fetch calls made. -/
def request (fetches : Nat → FetchResponse) : RequestResult × Nat :=
  if !((fetches 0).ok) then
    match (fetches 0).json with
    | some errorData =>
      (.apiError
        (jsOr (errorData.getField "message")
          (jsOr (errorData.getField "detail") (.str (fetches 0).statusText)))
        (fetches 0).status
        (errorData.getField "code"), 1)
    | none => (.apiError (.str (fetches 0).statusText) (fetches 0).status none, 1)
  else
    match (fetches 0).json with
    | some body => (.ok body, 1)
    | none => (.parseError, 1)

/-- Claim C10: every call to APIClient.request issues exactly one HTTP
fetch (the client itself performs no retry or backoff — the result depends
only on the first response and the fetch count is one), throws an ApiError
carrying the response's HTTP status and a message if and only if the
response status is not ok, and on an ok response returns the response body
parsed as JSON. -/
theorem apiClient_request_single_fetch (fetches : Nat → FetchResponse) :
    (request fetches).2 = 1 ∧
    (∀ g : Nat → FetchResponse, g 0 = fetches 0 → request g = request fetches) ∧
    ((∃ m s c, (request fetches).1 = .apiError m s c) ↔ (fetches 0).ok = false) ∧
    (∀ m s c, (request fetches).1 = .apiError m s c → s = (fetches 0).status) ∧
    (∀ body, (fetches 0).ok = true → (fetches 0).json = some body →
      (request fetches).1 = .ok body) := by
  refine ⟨?_, ?_, ?_, ?_, ?_⟩
  · unfold request
    cases hok : (fetches 0).ok <;> cases hj : (fetches 0).json <;> rfl
  · intro g hg
    unfold request
    rw [hg]
  · constructor
    · rintro ⟨m, s, c, h⟩
      unfold request at h
      cases hok : (fetches 0).ok with
      | false => rfl
      | true =>
        rw [hok] at h
        cases hj : (fetches 0).json with
        | some body =>
          rw [hj] at h
          simp at h
        | none =>
          rw [hj] at h
          simp at h
    · intro hok
      unfold request
      rw [hok]
      cases hj : (fetches 0).json with
      | some errorData => exact ⟨_, _, _, rfl⟩
      | none => exact ⟨_, _, _, rfl⟩
  · intro m s c h
    unfold request at h
    cases hok : (fetches 0).ok with
    | false =>
      rw [hok] at h
      cases hj : (fetches 0).json with
      | some errorData =>
        rw [hj] at h
        simp at h
        exact h.2.1.symm
      | none =>
        rw [hj] at h
        simp at h
        exact h.2.1.symm
    | true =>
      rw [hok] at h
      cases hj : (fetches 0).json with
      | some body =>
        rw [hj] at h
        simp at h
      | none =>
        rw [hj] at h
        simp at h
  · intro body hok hj
    unfold request
    rw [hok, hj]
    rfl
